import Mathlib

/-!
Verification of the physpy mixture-property engine.

The development shallowly embeds the correlation code of the repository:

* `src/app.py` (module-level basis conversion, lines 185-212, and the
  ideal-density call site, lines 222-223);
* `src/calculations/densidad.py` (ideal, Modified Rackett, COSTALD and
  Peng-Robinson + Peneloux density models);
* `src/calculations/viscosidad.py` (Arrhenius and Grunberg-Nissan);
* `src/calculations/tension_superficial.py` (Sprow-Prausnitz);
* `src/calculations/hansen_mix.py` (`calcular_hansen_mezcla`);
* `src/data/database.py` (the `SOLVENTS` constant table entries used here).

Exact rational arithmetic (`ℚ`) embeds the code paths whose claims only
involve field arithmetic; the real field (`ℝ`, with `Real.exp`, `Real.log`,
`Real.sqrt` and real exponentiation) embeds the transcendental
correlations; a small inductive type `NpVal` embeds the IEEE-754
special-value semantics (`inf`/`-inf`/`nan`) that numpy gives the code on
non-positive logarithm arguments and zero divisors.  Numerical black boxes
of the source (`np.roots`, `scipy.optimize.brentq`) are abstracted as
solver parameters constrained by their documented contracts.
-/

/-! ## Composition converter (src/app.py, lines 185-212)

The app converts between mass, molar and volume fractions with the same
two-step shape in every branch: form element-wise `relative` amounts
(divide or multiply by a per-component constant), then normalize by the
sum.  `divNormalize` embeds the dividing branches
(`moles_rel = f_mass / mws; f_mol = moles_rel / np.sum(moles_rel)` and
`vols_rel = f_mass / rhos_ref; f_vol = vols_rel / np.sum(vols_rel)`),
`mulNormalize` the multiplying ones
(`mass_rel = f_mol * mws` / `mass_rel = f_vol * rhos_ref` followed by the
same normalization). -/

def divNormalize (w d : List ℚ) : List ℚ :=
  let rel := List.zipWith (· / ·) w d
  rel.map (fun r => r / rel.sum)

def mulNormalize (x d : List ℚ) : List ℚ :=
  let rel := List.zipWith (· * ·) x d
  rel.map (fun r => r / rel.sum)

/-- Mass-fraction to molar-fraction branch of `src/app.py` (lines 196-198). -/
def convert_mass_to_molar (f_mass mws : List ℚ) : List ℚ :=
  divNormalize f_mass mws

/-- Molar-fraction to mass-fraction branch of `src/app.py` (lines 202-204). -/
def convert_molar_to_mass (f_mol mws : List ℚ) : List ℚ :=
  mulNormalize f_mol mws

/-- Mass-fraction to volume-fraction branch of `src/app.py` (lines 199-200). -/
def convert_mass_to_vol (f_mass rhos : List ℚ) : List ℚ :=
  divNormalize f_mass rhos

/-- Volume-fraction to mass-fraction branch of `src/app.py` (lines 208-210). -/
def convert_vol_to_mass (f_vol rhos : List ℚ) : List ℚ :=
  mulNormalize f_vol rhos

lemma zipWith_div_sum_nonneg :
    ∀ (w d : List ℚ), (∀ a ∈ w, 0 ≤ a) → (∀ b ∈ d, 0 < b) →
      0 ≤ (List.zipWith (· / ·) w d).sum := by
  intro w
  induction w with
  | nil => intro d _ _; simp
  | cons a w ih =>
    intro d hw hd
    cases d with
    | nil => simp
    | cons b d' =>
      simp only [List.zipWith_cons_cons, List.sum_cons]
      have h1 : 0 ≤ a / b :=
        div_nonneg (hw a (by simp)) (le_of_lt (hd b (by simp)))
      have h2 : 0 ≤ (List.zipWith (· / ·) w d').sum :=
        ih d' (fun y hy => hw y (by simp [hy])) (fun y hy => hd y (by simp [hy]))
      linarith

lemma zipWith_div_sum_pos :
    ∀ (w d : List ℚ), w.length = d.length → (∀ a ∈ w, 0 ≤ a) →
      (∀ b ∈ d, 0 < b) → 0 < w.sum →
      0 < (List.zipWith (· / ·) w d).sum := by
  intro w
  induction w with
  | nil => intro d _ _ _ h; simp at h
  | cons a w ih =>
    intro d hlen hw hd hsum
    cases d with
    | nil => simp at hlen
    | cons b d' =>
      simp only [List.zipWith_cons_cons, List.sum_cons]
      have ha : 0 ≤ a := hw a (by simp)
      have hrest : 0 ≤ (List.zipWith (· / ·) w d').sum :=
        zipWith_div_sum_nonneg w d' (fun y hy => hw y (by simp [hy]))
          (fun y hy => hd y (by simp [hy]))
      rcases lt_or_eq_of_le ha with hpos | heq
      · have h1 : 0 < a / b := div_pos hpos (hd b (by simp))
        linarith
      · have hsum' : 0 < w.sum := by
          simp only [List.sum_cons] at hsum
          rw [← heq] at hsum
          linarith
        have h2 := ih d' (by simpa using hlen)
          (fun y hy => hw y (by simp [hy])) (fun y hy => hd y (by simp [hy])) hsum'
        have h1 : 0 ≤ a / b := div_nonneg ha (le_of_lt (hd b (by simp)))
        linarith

lemma zipWith_divScale_mul (S : ℚ) :
    ∀ (w d : List ℚ), w.length = d.length → (∀ b ∈ d, 0 < b) →
      List.zipWith (· * ·) ((List.zipWith (· / ·) w d).map (fun r => r / S)) d =
        w.map (fun a => a / S) := by
  intro w
  induction w with
  | nil =>
    intro d hlen _
    cases d with
    | nil => simp
    | cons b d' => simp at hlen
  | cons a w ih =>
    intro d hlen hd
    cases d with
    | nil => simp at hlen
    | cons b d' =>
      have hb : b ≠ 0 := ne_of_gt (hd b (by simp))
      simp only [List.zipWith_cons_cons, List.map_cons]
      have h1 : a / b / S * b = a / S := by
        rw [div_div, div_mul_eq_mul_div, mul_comm b S, mul_div_mul_right a S hb]
      rw [h1, ih d' (by simpa using hlen) (fun y hy => hd y (by simp [hy]))]

lemma sum_map_div (l : List ℚ) (S : ℚ) :
    (l.map (fun a => a / S)).sum = l.sum / S := by
  induction l with
  | nil => simp
  | cons a l ih => simp [ih, add_div]

/-- Generic round trip: dividing by per-component constants and
normalizing, then multiplying back by the same constants and normalizing,
recovers a nonnegative vector of sum 1 exactly. -/
lemma divNormalize_mulNormalize_roundtrip (w d : List ℚ)
    (hlen : w.length = d.length) (hw : ∀ a ∈ w, 0 ≤ a)
    (hd : ∀ b ∈ d, 0 < b) (hsum : w.sum = 1) :
    mulNormalize (divNormalize w d) d = w := by
  have hSpos : 0 < (List.zipWith (· / ·) w d).sum :=
    zipWith_div_sum_pos w d hlen hw hd (by rw [hsum]; norm_num)
  set S := (List.zipWith (· / ·) w d).sum with hSdef
  have hSne : S ≠ 0 := ne_of_gt hSpos
  unfold mulNormalize divNormalize
  simp only
  rw [← hSdef, zipWith_divScale_mul S w d hlen hd, sum_map_div, hsum,
    List.map_map]
  have hfun : ((fun r => r / (1 / S)) ∘ fun a => a / S) = id := by
    funext a
    simp only [Function.comp_apply, id_eq]
    field_simp
  rw [hfun, List.map_id]

/-- Claim C3: for every valid mass fraction vector (non-negative, summing
to 1) over components with positive molar masses and reference densities,
the converter round trips mass→molar→mass and mass→volume→mass recover
the original mass fraction vector (here: exactly, in exact arithmetic,
hence a fortiori within the 1e-9 relative tolerance of the claim). -/
theorem c3_mass_roundtrips (f_mass mws rhos : List ℚ)
    (hlen1 : f_mass.length = mws.length) (hlen2 : f_mass.length = rhos.length)
    (hw : ∀ a ∈ f_mass, 0 ≤ a) (hm : ∀ b ∈ mws, 0 < b)
    (hr : ∀ b ∈ rhos, 0 < b) (hsum : f_mass.sum = 1) :
    convert_molar_to_mass (convert_mass_to_molar f_mass mws) mws = f_mass ∧
    convert_vol_to_mass (convert_mass_to_vol f_mass rhos) rhos = f_mass := by
  constructor
  · exact divNormalize_mulNormalize_roundtrip f_mass mws hlen1 hw hm hsum
  · exact divNormalize_mulNormalize_roundtrip f_mass rhos hlen2 hw hr hsum

/-- Witness for C3 at the concrete water/ethanol data of
`src/data/database.py` (mass fractions 0.4/0.6). -/
theorem c3_witness :
    convert_molar_to_mass
        (convert_mass_to_molar [2/5, 3/5] [18.015, 46.069]) [18.015, 46.069] =
      [2/5, 3/5] ∧
    convert_vol_to_mass
        (convert_mass_to_vol [2/5, 3/5] [997, 789]) [997, 789] =
      [2/5, 3/5] :=
  c3_mass_roundtrips [2/5, 3/5] [18.015, 46.069] [997, 789]
    rfl rfl (by norm_num) (by norm_num) (by norm_num)
    (by norm_num [List.sum_cons, List.sum_nil])

/-! ## Ideal-mixing density (src/calculations/densidad.py, lines 4-13)

`densidad_ideal` computes `1 / sum(wi / rhoi)` over mass fractions;
a `ZeroDivisionError` is caught and turned into the not-a-number
sentinel, which the embedding renders as `none`. -/

def densidad_ideal (fracciones_peso densidades_puras : List ℚ) : Option ℚ :=
  if (List.zipWith (· / ·) fracciones_peso densidades_puras).sum = 0 then none
  else some (1 / (List.zipWith (· / ·) fracciones_peso densidades_puras).sum)

lemma zipWith_div_map_mul (c : ℚ) :
    ∀ (w rho : List ℚ),
      List.zipWith (· / ·) w (rho.map (fun r => c * r)) =
        (List.zipWith (· / ·) w rho).map (fun a => a / c) := by
  intro w
  induction w with
  | nil => intro rho; simp
  | cons a w ih =>
    intro rho
    cases rho with
    | nil => simp
    | cons r rho' =>
      simp only [List.map_cons, List.zipWith_cons_cons]
      rw [ih rho', div_div, mul_comm c r]

/-- Claim C10: `densidad_ideal` is homogeneous of degree 1 in the pure
densities, and consequently the call-site practice of `src/app.py`
line 223 (pass densities divided by 1000, multiply the result by 1000)
agrees with evaluating directly on the kg/m³ densities. -/
theorem c10_densidad_ideal_homogeneous (w rho : List ℚ) (c : ℚ)
    (hlen : w.length = rho.length) (hw : ∀ a ∈ w, 0 ≤ a)
    (hsum : w.sum = 1) (hrho : ∀ r ∈ rho, 0 < r) (hc : 0 < c) :
    densidad_ideal w (rho.map (fun r => c * r)) =
      (densidad_ideal w rho).map (fun v => c * v) ∧
    (densidad_ideal w (rho.map (fun r => r / 1000))).map (fun v => v * 1000) =
      densidad_ideal w rho := by
  have key : ∀ k : ℚ, 0 < k →
      densidad_ideal w (rho.map (fun r => k * r)) =
        (densidad_ideal w rho).map (fun v => k * v) := by
    intro k hk
    have hS : 0 < (List.zipWith (· / ·) w rho).sum :=
      zipWith_div_sum_pos w rho hlen hw hrho (by rw [hsum]; norm_num)
    set S := (List.zipWith (· / ·) w rho).sum with hSdef
    have hSne : S ≠ 0 := ne_of_gt hS
    have hkne : k ≠ 0 := ne_of_gt hk
    unfold densidad_ideal
    rw [zipWith_div_map_mul k w rho, sum_map_div, ← hSdef]
    rw [if_neg (by positivity), if_neg hSne]
    simp only [Option.map_some']
    congr 1
    field_simp
  constructor
  · exact key c hc
  · have hmapeq : rho.map (fun r => r / 1000) = rho.map (fun r => (1/1000) * r) := by
      apply List.map_congr_left
      intro r _
      ring
    rw [hmapeq, key (1/1000) (by norm_num)]
    have hS : 0 < (List.zipWith (· / ·) w rho).sum :=
      zipWith_div_sum_pos w rho hlen hw hrho (by rw [hsum]; norm_num)
    unfold densidad_ideal
    rw [if_neg (ne_of_gt hS)]
    simp only [Option.map_some']
    congr 1
    ring

/-- Witness for C10 at the water/ethanol reference densities with the
call site's scale factor. -/
theorem c10_witness :
    densidad_ideal [2/5, 3/5] ([997, 789].map (fun r => 2 * r)) =
      (densidad_ideal [2/5, 3/5] [997, 789]).map (fun v => 2 * v) ∧
    (densidad_ideal [2/5, 3/5] ([997, 789].map (fun r => r / 1000))).map
        (fun v => v * 1000) =
      densidad_ideal [2/5, 3/5] [997, 789] :=
  c10_densidad_ideal_homogeneous [2/5, 3/5] [997, 789] 2 rfl
    (by norm_num) (by norm_num [List.sum_cons, List.sum_nil])
    (by norm_num) (by norm_num)

/-! ## Hansen parameter mixer (src/calculations/hansen_mix.py, lines 4-9)

`calcular_hansen_mezcla` sums `f * d` over the zipped volume fractions
and per-component axes, once per Hansen axis, and returns the 3-tuple.
It is a total function: no branch of it can fail. -/

def calcular_hansen_mezcla (fracciones_vol dDs dPs dHs : List ℚ) :
    ℚ × ℚ × ℚ :=
  ((List.zipWith (· * ·) fracciones_vol dDs).sum,
   (List.zipWith (· * ·) fracciones_vol dPs).sum,
   (List.zipWith (· * ·) fracciones_vol dHs).sum)

/-- Specification-side formulation of one mixture axis (the spec's
words: the volume-fraction-weighted linear average per axis), written
independently as an index-based weighted sum. -/
def hansen_axis_weighted_avg (phi axis : List ℚ) : ℚ :=
  ∑ i in Finset.range phi.length, phi.getD i 0 * axis.getD i 0

lemma zipWith_mul_sum_eq_weighted_avg :
    ∀ (phi axis : List ℚ), phi.length = axis.length →
      (List.zipWith (· * ·) phi axis).sum = hansen_axis_weighted_avg phi axis := by
  intro phi
  induction phi with
  | nil => intro axis _; simp [hansen_axis_weighted_avg]
  | cons a phi ih =>
    intro axis hlen
    cases axis with
    | nil => simp at hlen
    | cons b axis' =>
      simp only [List.zipWith_cons_cons, List.sum_cons]
      rw [ih axis' (by simpa using hlen)]
      unfold hansen_axis_weighted_avg
      rw [List.length_cons, Finset.sum_range_succ']
      simp [add_comm]

/-- Claim C9: the Hansen mixer computes, for any volume fraction vector
and per-component axes of matching lengths, exactly the
volume-fraction-weighted linear average of each of the three axes (it is
a total function, so it never fails), and on the equal-volume ternary
blend of axes (10,0,0), (0,10,0), (0,0,10) every mixture axis is 10/3,
which is 3.33 within rounding (less than 0.005 away). -/
theorem c9_hansen_weighted_average :
    (∀ (phi dDs dPs dHs : List ℚ),
      phi.length = dDs.length → phi.length = dPs.length →
      phi.length = dHs.length →
      calcular_hansen_mezcla phi dDs dPs dHs =
        (hansen_axis_weighted_avg phi dDs, hansen_axis_weighted_avg phi dPs,
         hansen_axis_weighted_avg phi dHs)) ∧
    calcular_hansen_mezcla [1/3, 1/3, 1/3] [10, 0, 0] [0, 10, 0] [0, 0, 10] =
      (10/3, 10/3, 10/3) ∧
    |(10 : ℚ)/3 - 333/100| < 5/1000 := by
  refine ⟨?_, ?_, ?_⟩
  · intro phi dDs dPs dHs h1 h2 h3
    unfold calcular_hansen_mezcla
    rw [zipWith_mul_sum_eq_weighted_avg phi dDs h1,
      zipWith_mul_sum_eq_weighted_avg phi dPs h2,
      zipWith_mul_sum_eq_weighted_avg phi dHs h3]
  · unfold calcular_hansen_mezcla
    norm_num
  · rw [abs_lt]
    constructor <;> norm_num

/-- Witness for C9 at the water/ethanol axes of `src/data/database.py`. -/
theorem c9_witness :
    calcular_hansen_mezcla [1/2, 1/2] [15.5, 15.8] [16.0, 8.8] [42.3, 19.4] =
      (hansen_axis_weighted_avg [1/2, 1/2] [15.5, 15.8],
       hansen_axis_weighted_avg [1/2, 1/2] [16.0, 8.8],
       hansen_axis_weighted_avg [1/2, 1/2] [42.3, 19.4]) :=
  c9_hansen_weighted_average.1 [1/2, 1/2] [15.5, 15.8] [16.0, 8.8]
    [42.3, 19.4] rfl rfl rfl

/-! ## IEEE-754 special-value semantics of the numpy arithmetic

The viscosity functions of `src/calculations/viscosidad.py` and the
basis-conversion in `src/app.py` run on numpy floats: `np.log(0.0)`
evaluates to `-inf` (with a warning, not an exception), `np.log` of a
negative number evaluates to `nan`, division of a positive float by
`0.0` gives `inf`, `inf/inf` gives `nan`, `np.exp(-inf)` gives `0.0`,
and `nan` propagates through arithmetic.  `NpVal` embeds a float as
either an exact finite rational, `inf`, `-inf` or `nan` (overflow and
rounding are not modelled; the finite branches of `log`/`exp` are the
function parameters `flog`/`fexp`). -/

inductive NpVal where
  | fin (q : ℚ)
  | pinf
  | ninf
  | nan
deriving DecidableEq

def npAdd : NpVal → NpVal → NpVal
  | NpVal.nan, _ => NpVal.nan
  | _, NpVal.nan => NpVal.nan
  | NpVal.fin a, NpVal.fin b => NpVal.fin (a + b)
  | NpVal.fin _, NpVal.pinf => NpVal.pinf
  | NpVal.fin _, NpVal.ninf => NpVal.ninf
  | NpVal.pinf, NpVal.fin _ => NpVal.pinf
  | NpVal.ninf, NpVal.fin _ => NpVal.ninf
  | NpVal.pinf, NpVal.pinf => NpVal.pinf
  | NpVal.ninf, NpVal.ninf => NpVal.ninf
  | NpVal.pinf, NpVal.ninf => NpVal.nan
  | NpVal.ninf, NpVal.pinf => NpVal.nan

def npMul : NpVal → NpVal → NpVal
  | NpVal.nan, _ => NpVal.nan
  | _, NpVal.nan => NpVal.nan
  | NpVal.fin a, NpVal.fin b => NpVal.fin (a * b)
  | NpVal.fin a, NpVal.pinf =>
      if 0 < a then NpVal.pinf else if a < 0 then NpVal.ninf else NpVal.nan
  | NpVal.pinf, NpVal.fin a =>
      if 0 < a then NpVal.pinf else if a < 0 then NpVal.ninf else NpVal.nan
  | NpVal.fin a, NpVal.ninf =>
      if 0 < a then NpVal.ninf else if a < 0 then NpVal.pinf else NpVal.nan
  | NpVal.ninf, NpVal.fin a =>
      if 0 < a then NpVal.ninf else if a < 0 then NpVal.pinf else NpVal.nan
  | NpVal.pinf, NpVal.pinf => NpVal.pinf
  | NpVal.ninf, NpVal.ninf => NpVal.pinf
  | NpVal.pinf, NpVal.ninf => NpVal.ninf
  | NpVal.ninf, NpVal.pinf => NpVal.ninf

def npDiv : NpVal → NpVal → NpVal
  | NpVal.nan, _ => NpVal.nan
  | _, NpVal.nan => NpVal.nan
  | NpVal.fin a, NpVal.fin b =>
      if b = 0 then
        (if 0 < a then NpVal.pinf else if a < 0 then NpVal.ninf else NpVal.nan)
      else NpVal.fin (a / b)
  | NpVal.fin _, NpVal.pinf => NpVal.fin 0
  | NpVal.fin _, NpVal.ninf => NpVal.fin 0
  | NpVal.pinf, NpVal.fin b => if 0 ≤ b then NpVal.pinf else NpVal.ninf
  | NpVal.ninf, NpVal.fin b => if 0 ≤ b then NpVal.ninf else NpVal.pinf
  | NpVal.pinf, NpVal.pinf => NpVal.nan
  | NpVal.pinf, NpVal.ninf => NpVal.nan
  | NpVal.ninf, NpVal.pinf => NpVal.nan
  | NpVal.ninf, NpVal.ninf => NpVal.nan

def npLog (flog : ℚ → ℚ) : NpVal → NpVal
  | NpVal.fin q =>
      if 0 < q then NpVal.fin (flog q)
      else if q = 0 then NpVal.ninf else NpVal.nan
  | NpVal.pinf => NpVal.pinf
  | NpVal.ninf => NpVal.nan
  | NpVal.nan => NpVal.nan

def npExp (fexp : ℚ → ℚ) : NpVal → NpVal
  | NpVal.fin q => NpVal.fin (fexp q)
  | NpVal.pinf => NpVal.pinf
  | NpVal.ninf => NpVal.fin 0
  | NpVal.nan => NpVal.nan

/-- Python's `sum` of a sequence of floats starts from `0`. -/
def npSum (l : List NpVal) : NpVal :=
  List.foldl npAdd (NpVal.fin 0) l

lemma npAdd_nan_right (v : NpVal) : npAdd v NpVal.nan = NpVal.nan := by
  cases v <;> rfl

lemma npAdd_nan_left (v : NpVal) : npAdd NpVal.nan v = NpVal.nan := by
  cases v <;> rfl

lemma foldl_npAdd_nan (l : List NpVal) :
    List.foldl npAdd NpVal.nan l = NpVal.nan := by
  induction l with
  | nil => rfl
  | cons a l ih => simp only [List.foldl_cons, npAdd_nan_left]; exact ih

lemma foldl_npAdd_eq_nan :
    ∀ (l : List NpVal) (acc : NpVal), NpVal.nan ∈ l →
      List.foldl npAdd acc l = NpVal.nan := by
  intro l
  induction l with
  | nil => intro acc h; simp at h
  | cons a l ih =>
    intro acc h
    rcases List.mem_cons.mp h with rfl | hmem
    · simp only [List.foldl_cons, npAdd_nan_right]
      exact foldl_npAdd_nan l
    · simp only [List.foldl_cons]
      exact ih _ hmem

lemma npSum_eq_nan_of_mem (l : List NpVal) (h : NpVal.nan ∈ l) :
    npSum l = NpVal.nan :=
  foldl_npAdd_eq_nan l _ h

/-- Finite-or-`inf` values: what the entries of a numpy fraction array
can be after dividing nonnegative floats by nonnegative floats. -/
def finOrPinf (v : NpVal) : Prop :=
  (∃ q : ℚ, v = NpVal.fin q) ∨ v = NpVal.pinf

lemma foldl_npAdd_pinf (l : List NpVal) (h : ∀ v ∈ l, finOrPinf v) :
    List.foldl npAdd NpVal.pinf l = NpVal.pinf := by
  induction l with
  | nil => rfl
  | cons a l ih =>
    rcases h a (by simp) with ⟨q, rfl⟩ | rfl
    · simp only [List.foldl_cons]
      exact ih (fun v hv => h v (by simp [hv]))
    · simp only [List.foldl_cons]
      exact ih (fun v hv => h v (by simp [hv]))

lemma foldl_npAdd_fin_pinf :
    ∀ (l : List NpVal) (q : ℚ), (∀ v ∈ l, finOrPinf v) → NpVal.pinf ∈ l →
      List.foldl npAdd (NpVal.fin q) l = NpVal.pinf := by
  intro l
  induction l with
  | nil => intro q _ h; simp at h
  | cons a l ih =>
    intro q hall hmem
    rcases hall a (by simp) with ⟨q', rfl⟩ | rfl
    · have hmem' : NpVal.pinf ∈ l := by
        rcases List.mem_cons.mp hmem with h | h
        · exact absurd h (by simp)
        · exact h
      simp only [List.foldl_cons]
      exact ih (q + q') (fun v hv => hall v (by simp [hv])) hmem'
    · simp only [List.foldl_cons]
      exact foldl_npAdd_pinf l (fun v hv => hall v (by simp [hv]))

lemma npSum_eq_pinf (l : List NpVal) (hall : ∀ v ∈ l, finOrPinf v)
    (hmem : NpVal.pinf ∈ l) : npSum l = NpVal.pinf :=
  foldl_npAdd_fin_pinf l 0 hall hmem

/-! ## Viscosity models (src/calculations/viscosidad.py)

`gval` embeds the hardcoded Grunberg-Nissan interaction lookup of
`metodo_grunberg_nissan` (lines 40-53): the coefficient is selected by
testing whether both names of a hardcoded pair occur among the two
component names (`set.issubset` in the source), with 0 as the default. -/

def inPair (s name_i name_j : String) : Bool :=
  s == name_i || s == name_j

def gval (name_i name_j : String) : ℚ :=
  if (inPair "Butanol" name_i name_j && inPair "Tolueno" name_i name_j) ||
     (inPair "n-Butanol" name_i name_j && inPair "Tolueno" name_i name_j) then
    -0.4
  else if (inPair "Acetona" name_i name_j && inPair "Butanol" name_i name_j) ||
     (inPair "Acetona" name_i name_j && inPair "n-Butanol" name_i name_j) then
    -0.2
  else if inPair "Agua" name_i name_j && inPair "Etanol" name_i name_j then
    0.1
  else 0

/-- `metodo_arrhenius` (lines 8-14) under the numpy special-value
semantics: `np.exp(sum(xi * np.log(mu_i)))`. -/
def metodo_arrhenius_fp (flog fexp : ℚ → ℚ) (x mu : List ℚ) : NpVal :=
  npExp fexp (npSum (List.zipWith
    (fun xi mui => npMul (NpVal.fin xi) (npLog flog (NpVal.fin mui))) x mu))

/-- `metodo_grunberg_nissan` (lines 24-60) under the numpy special-value
semantics: the Arrhenius log-sum plus the finite pairwise excess term
`sum gij * xi * xj` over `i ≠ j`. -/
def metodo_grunberg_nissan_fp (flog fexp : ℚ → ℚ) (x mu : List ℚ)
    (names : List String) : NpVal :=
  npExp fexp (npAdd
    (npSum (List.zipWith
      (fun xi mui => npMul (NpVal.fin xi) (npLog flog (NpVal.fin mui))) x mu))
    (NpVal.fin (∑ i in Finset.range names.length,
      ∑ j in Finset.range names.length,
      if i ≠ j then gval (names.getD i "") (names.getD j "") *
        x.getD i 0 * x.getD j 0 else 0)))

/-- Counterexample to claim C5: a zero pure viscosity at molar fraction 1
does not produce the not-a-number sentinel.  `np.log(0.0)` is `-inf`
(no exception is raised), the weighted sum is `-inf`, and `np.exp(-inf)`
is the finite float `0.0`, for Arrhenius and Grunberg-Nissan alike. -/
theorem c5_counterexample :
    metodo_arrhenius_fp id id [1] [0] = NpVal.fin 0 ∧
    metodo_grunberg_nissan_fp id id [1] [0] ["Agua"] = NpVal.fin 0 ∧
    NpVal.fin (0 : ℚ) ≠ NpVal.nan := by
  refine ⟨?_, ?_, by simp⟩
  · rfl
  · simp only [metodo_grunberg_nissan_fp]
    norm_num [npSum, npExp, npAdd, npMul, npLog, List.zipWith, List.foldl]

/-- Claim C5, amended: for every molar composition containing a component
with a negative pure viscosity, Arrhenius and Grunberg-Nissan return the
not-a-number sentinel (a zero pure viscosity instead yields `-inf` in the
log-sum and hence the finite value 0, see `c5_counterexample`). -/
theorem c5_negative_viscosity_nan (flog fexp : ℚ → ℚ) (x mu : List ℚ)
    (names : List String) (i : ℕ) (hix : i < x.length)
    (himu : i < mu.length) (hneg : mu[i] < 0) :
    metodo_arrhenius_fp flog fexp x mu = NpVal.nan ∧
    metodo_grunberg_nissan_fp flog fexp x mu names = NpVal.nan := by
  have hiL : i < (List.zipWith
      (fun xi mui => npMul (NpVal.fin xi) (npLog flog (NpVal.fin mui))) x mu).length := by
    rw [List.length_zipWith]
    omega
  have helem : (List.zipWith
      (fun xi mui => npMul (NpVal.fin xi) (npLog flog (NpVal.fin mui))) x mu)[i] =
      NpVal.nan := by
    rw [List.getElem_zipWith]
    have h1 : npLog flog (NpVal.fin mu[i]) = NpVal.nan := by
      simp [npLog, not_lt.mpr hneg.le, hneg.ne]
    rw [h1]
    rfl
  have hmem : NpVal.nan ∈ List.zipWith
      (fun xi mui => npMul (NpVal.fin xi) (npLog flog (NpVal.fin mui))) x mu :=
    helem ▸ List.getElem_mem hiL
  have hsum := npSum_eq_nan_of_mem _ hmem
  constructor
  · simp only [metodo_arrhenius_fp, hsum]
    rfl
  · simp only [metodo_grunberg_nissan_fp, hsum]
    rfl

/-- Witness for the amended C5 at a concrete negative viscosity. -/
theorem c5_witness :
    metodo_arrhenius_fp id id [1] [-1] = NpVal.nan ∧
    metodo_grunberg_nissan_fp id id [1] [-1] ["Agua"] = NpVal.nan :=
  c5_negative_viscosity_nan id id [1] [-1] ["Agua"] 0 (by norm_num)
    (by norm_num) (by norm_num)

/-! ## Basis conversion under numpy special-value semantics (src/app.py)

The mass-basis branch of `src/app.py` (lines 196-200) divides the mass
fraction array element-wise by the molar masses (resp. reference
densities) and normalizes by the numpy sum.  No zero check of any kind
guards these divisions; numpy turns a positive-by-zero division into
`inf` (a warning, never an exception), so the branch always produces a
full fraction vector. -/

def np_div_normalize (w d : List ℚ) : List NpVal :=
  (List.zipWith (fun wi di => npDiv (NpVal.fin wi) (NpVal.fin di)) w d).map
    (fun r => npDiv r (npSum (List.zipWith
      (fun wi di => npDiv (NpVal.fin wi) (NpVal.fin di)) w d)))

/-- Molar fractions from mass fractions, `src/app.py` lines 197-198,
with the numpy float semantics made explicit. -/
def f_mol_of_mass_fp (f_mass mws : List ℚ) : List NpVal :=
  np_div_normalize f_mass mws

/-- Volume fractions from mass fractions, `src/app.py` lines 199-200,
with the numpy float semantics made explicit. -/
def f_vol_of_mass_fp (f_mass rhos : List ℚ) : List NpVal :=
  np_div_normalize f_mass rhos

/-- Counterexample to claim C7: with a zero molar mass the converter does
not fail and signals nothing — numpy divides silently (`0.5/0.0 = inf`,
`inf/inf = nan`, `finite/inf = 0.0`) and a fraction vector is produced. -/
theorem c7_counterexample :
    f_mol_of_mass_fp [1/2, 1/2] [0, 18.015] = [NpVal.nan, NpVal.fin 0] := by
  simp only [f_mol_of_mass_fp, np_div_normalize, List.zipWith, List.map,
    npSum, List.foldl, npDiv, npAdd]
  norm_num

/-- Claim C7, amended: the basis converter performs no validation at all.
With a zero molar mass (or reference density) at a positive fraction and
otherwise positive divisors, the division proceeds silently and yields a
full vector: `nan` at the zero-divisor position, `0.0` everywhere else —
no error is signalled before the correlations run. -/
theorem c7_silent_division (w m : List ℚ) (i : ℕ)
    (hlen : w.length = m.length) (hiw : i < w.length) (him : i < m.length)
    (hwi : 0 < w[i]) (hmi : m[i] = 0) (hw : ∀ a ∈ w, 0 ≤ a)
    (hm : ∀ j (hj : j < m.length), j ≠ i → 0 < m[j]) :
    (∀ hi2 : i < (f_mol_of_mass_fp w m).length,
      (f_mol_of_mass_fp w m).get ⟨i, hi2⟩ = NpVal.nan) ∧
    (∀ j (hj : j < (f_mol_of_mass_fp w m).length), j ≠ i →
      (f_mol_of_mass_fp w m).get ⟨j, hj⟩ = NpVal.fin 0) := by
  have hrellen : (List.zipWith (fun wi di => npDiv (NpVal.fin wi) (NpVal.fin di)) w m).length =
      w.length := by
    rw [List.length_zipWith]
    omega
  have hrel : ∀ j (hj : j < w.length) (hj2 : j < m.length)
      (hjr : j < (List.zipWith (fun wi di => npDiv (NpVal.fin wi) (NpVal.fin di)) w m).length),
      (List.zipWith (fun wi di => npDiv (NpVal.fin wi) (NpVal.fin di)) w m).get ⟨j, hjr⟩ =
        npDiv (NpVal.fin (w.get ⟨j, hj⟩)) (NpVal.fin (m.get ⟨j, hj2⟩)) := by
    intro j hj hj2 hjr
    simp only [List.get_eq_getElem]
    rw [List.getElem_zipWith]
  have hreli : ∀ hir : i <
      (List.zipWith (fun wi di => npDiv (NpVal.fin wi) (NpVal.fin di)) w m).length,
      (List.zipWith (fun wi di => npDiv (NpVal.fin wi) (NpVal.fin di)) w m).get ⟨i, hir⟩ =
        NpVal.pinf := by
    intro hir
    rw [hrel i hiw him hir]
    simp [npDiv, hmi, hwi]
  have hrelj : ∀ j (hj : j < w.length) (hj2 : j < m.length)
      (hjr : j < (List.zipWith (fun wi di => npDiv (NpVal.fin wi) (NpVal.fin di)) w m).length),
      j ≠ i →
      (List.zipWith (fun wi di => npDiv (NpVal.fin wi) (NpVal.fin di)) w m).get ⟨j, hjr⟩ =
        NpVal.fin (w.get ⟨j, hj⟩ / m.get ⟨j, hj2⟩) := by
    intro j hj hj2 hjr hne
    rw [hrel j hj hj2 hjr]
    have hmj : m[j] ≠ 0 := ne_of_gt (hm j hj2 hne)
    simp [npDiv, hmj]
  have hall : ∀ v ∈ List.zipWith (fun wi di => npDiv (NpVal.fin wi) (NpVal.fin di)) w m,
      finOrPinf v := by
    intro v hv
    rcases List.mem_iff_get.mp hv with ⟨⟨j, hjr⟩, hveq⟩
    have hjw : j < w.length := by rw [hrellen] at hjr; exact hjr
    have hjm : j < m.length := by omega
    by_cases hji : j = i
    · subst hji
      right
      rw [← hveq]
      exact hreli hjr
    · left
      refine ⟨w.get ⟨j, hjw⟩ / m.get ⟨j, hjm⟩, ?_⟩
      rw [← hveq]
      exact hrelj j hjw hjm hjr hji
  have hmem : NpVal.pinf ∈
      List.zipWith (fun wi di => npDiv (NpVal.fin wi) (NpVal.fin di)) w m := by
    have hir : i <
        (List.zipWith (fun wi di => npDiv (NpVal.fin wi) (NpVal.fin di)) w m).length := by
      rw [hrellen]
      exact hiw
    rw [← hreli hir]
    exact List.get_mem _ _ _
  have hsum : npSum (List.zipWith (fun wi di => npDiv (NpVal.fin wi) (NpVal.fin di)) w m) =
      NpVal.pinf := npSum_eq_pinf _ hall hmem
  constructor
  · intro hi2
    have hir : i <
        (List.zipWith (fun wi di => npDiv (NpVal.fin wi) (NpVal.fin di)) w m).length := by
      rw [hrellen]
      exact hiw
    have h2 := hreli hir
    simp only [List.get_eq_getElem] at h2
    simp only [f_mol_of_mass_fp, np_div_normalize, List.get_eq_getElem] at hi2 ⊢
    rw [List.getElem_map]
    simp only [hsum, h2]
    rfl
  · intro j hj hne
    have hjw : j < w.length := by
      simp only [f_mol_of_mass_fp, np_div_normalize, List.length_map] at hj
      rw [hrellen] at hj
      exact hj
    have hjm : j < m.length := by omega
    have hjr : j <
        (List.zipWith (fun wi di => npDiv (NpVal.fin wi) (NpVal.fin di)) w m).length := by
      rw [hrellen]
      exact hjw
    have h2 := hrelj j hjw hjm hjr hne
    simp only [List.get_eq_getElem] at h2
    simp only [f_mol_of_mass_fp, np_div_normalize, List.get_eq_getElem]
    rw [List.getElem_map]
    simp only [hsum, h2]
    rfl

/-- Witness for the amended C7 at the concrete zero molar mass input of
`c7_counterexample`. -/
theorem c7_witness :
    (∀ hi2 : 0 < (f_mol_of_mass_fp [1/2, 1/2] [0, 18.015]).length,
      (f_mol_of_mass_fp [1/2, 1/2] [0, 18.015]).get ⟨0, hi2⟩ = NpVal.nan) ∧
    (∀ j (hj : j < (f_mol_of_mass_fp [1/2, 1/2] [0, 18.015]).length), j ≠ 0 →
      (f_mol_of_mass_fp [1/2, 1/2] [0, 18.015]).get ⟨j, hj⟩ = NpVal.fin 0) :=
  c7_silent_division [1/2, 1/2] [0, 18.015] 0 rfl (by norm_num) (by norm_num)
    (by norm_num) (by norm_num) (by norm_num)
    (by
      intro j hj hne
      simp only [List.length_cons, List.length_nil] at hj
      interval_cases j
      · exact absurd rfl hne
      · norm_num)

/-! ## Viscosity models over the real field

For strictly positive viscosities the numpy computation stays inside the
finite floats, and `src/calculations/viscosidad.py` lines 8-14 and 24-60
are the real-valued expressions below (`np.log` = `Real.log`,
`np.exp` = `Real.exp`); the special-value behaviour outside that domain
is covered by `metodo_arrhenius_fp`/`metodo_grunberg_nissan_fp`. -/

noncomputable def metodo_arrhenius (fracciones_molares viscosidades_puras : List ℝ) : ℝ :=
  Real.exp ((List.zipWith (fun xi mu => xi * Real.log mu)
    fracciones_molares viscosidades_puras).sum)

noncomputable def metodo_grunberg_nissan (fracciones_molares viscosidades_puras : List ℝ)
    (names : List String) : ℝ :=
  Real.exp ((List.zipWith (fun xi mu => xi * Real.log mu)
      fracciones_molares viscosidades_puras).sum +
    ∑ i in Finset.range names.length, ∑ j in Finset.range names.length,
      if i ≠ j then
        ((gval (names.getD i "") (names.getD j "") : ℚ) : ℝ) *
          fracciones_molares.getD i 0 * fracciones_molares.getD j 0
      else 0)

/-- Claim C4: whenever no component pair of the mixture carries a
non-zero Grunberg-Nissan coefficient in the hardcoded lookup, the
Grunberg-Nissan model returns a value identical to the Arrhenius model
on the same molar composition and positive pure viscosities. -/
theorem c4_grunberg_nissan_eq_arrhenius (fracciones_molares viscosidades_puras : List ℝ)
    (names : List String)
    (hmu : ∀ m ∈ viscosidades_puras, (0 : ℝ) < m)
    (hg : ∀ i j, i < names.length → j < names.length → i ≠ j →
      gval (names.getD i "") (names.getD j "") = 0) :
    metodo_grunberg_nissan fracciones_molares viscosidades_puras names =
      metodo_arrhenius fracciones_molares viscosidades_puras := by
  unfold metodo_grunberg_nissan metodo_arrhenius
  have hexcess : (∑ i in Finset.range names.length, ∑ j in Finset.range names.length,
      if i ≠ j then
        ((gval (names.getD i "") (names.getD j "") : ℚ) : ℝ) *
          fracciones_molares.getD i 0 * fracciones_molares.getD j 0
      else 0) = 0 := by
    apply Finset.sum_eq_zero
    intro i hi
    apply Finset.sum_eq_zero
    intro j hj
    by_cases hij : i = j
    · simp [hij]
    · rw [if_pos hij]
      rw [hg i j (Finset.mem_range.mp hi) (Finset.mem_range.mp hj) hij]
      norm_num
  rw [hexcess, add_zero]

/-- Witness for C4: water and toluene carry no hardcoded interaction
coefficient, so Grunberg-Nissan and Arrhenius coincide there. -/
theorem c4_witness :
    metodo_grunberg_nissan [1/2, 1/2] [0.89, 0.56] ["Agua", "Tolueno"] =
      metodo_arrhenius [1/2, 1/2] [0.89, 0.56] :=
  c4_grunberg_nissan_eq_arrhenius [1/2, 1/2] [0.89, 0.56] ["Agua", "Tolueno"]
    (by norm_num)
    (by
      intro i j hi hj hne
      simp only [List.length_cons, List.length_nil] at hi hj
      interval_cases i <;> interval_cases j <;>
        first
        | exact absurd rfl hne
        | rfl)

/-- Counterexample to claim C6: in the concrete 50/50-by-volume
water/ethanol scenario the converted molar fraction of component B
(ethanol, the heavier molecule) is 14213835/60144628 ≈ 0.236, not
greater than 0.5 as the claim asserts. -/
theorem c6_counterexample :
    ¬ (1/2 < (convert_mass_to_molar
        (convert_vol_to_mass [1/2, 1/2] [997, 789]) [18.015, 46.069]).getD 1 0) := by
  have hx : convert_mass_to_molar
      (convert_vol_to_mass [1/2, 1/2] [997, 789]) [18.015, 46.069] =
        [45930793/60144628, 14213835/60144628] := by
    norm_num [convert_mass_to_molar, convert_vol_to_mass, divNormalize,
      mulNormalize, List.zipWith, List.sum_cons, List.sum_nil, List.map]
  rw [hx]
  norm_num

lemma arrhenius_two_bounds (a b mu1 mu2 : ℝ) (ha : 0 < a) (hb : 0 < b)
    (hab : a + b = 1) (h1 : 0 < mu1) (h12 : mu1 < mu2) :
    mu1 < metodo_arrhenius [a, b] [mu1, mu2] ∧
      metodo_arrhenius [a, b] [mu1, mu2] < mu2 := by
  have h2 : 0 < mu2 := lt_trans h1 h12
  have hlog : Real.log mu1 < Real.log mu2 := Real.log_lt_log h1 h12
  unfold metodo_arrhenius
  simp only [List.zipWith_cons_cons, List.zipWith_nil_right, List.sum_cons,
    List.sum_nil, add_zero]
  have ha1 : a = 1 - b := by linarith
  constructor
  · have hlt : Real.log mu1 < a * Real.log mu1 + b * Real.log mu2 := by
      have key : a * Real.log mu1 + b * Real.log mu2 - Real.log mu1 =
          b * (Real.log mu2 - Real.log mu1) := by
        rw [ha1]; ring
      have hpos := mul_pos hb (sub_pos.mpr hlog)
      linarith
    calc mu1 = Real.exp (Real.log mu1) := (Real.exp_log h1).symm
      _ < _ := Real.exp_lt_exp.mpr hlt
  · have hlt : a * Real.log mu1 + b * Real.log mu2 < Real.log mu2 := by
      have key : Real.log mu2 - (a * Real.log mu1 + b * Real.log mu2) =
          a * (Real.log mu2 - Real.log mu1) := by
        have hb1 : b = 1 - a := by linarith
        rw [hb1]; ring
      have hpos := mul_pos ha (sub_pos.mpr hlog)
      linarith
    calc Real.exp (a * Real.log mu1 + b * Real.log mu2)
        < Real.exp (Real.log mu2) := Real.exp_lt_exp.mpr hlt
      _ = mu2 := Real.exp_log h2

/-- Claim C6, amended: in the concrete 50/50-by-volume scenario with
A = water (MW 18.015, rho 997, mu 0.89 cP) and B = ethanol (MW 46.069,
rho 789, mu 1.07 cP), the converted molar fraction of B is less than 0.5
(B has the larger molar mass, so volume-to-mole conversion favours A),
and the Arrhenius viscosity of the converted composition lies strictly
between 0.89 and 1.07 cP. -/
theorem c6_scenario_amended :
    (convert_mass_to_molar
        (convert_vol_to_mass [1/2, 1/2] [997, 789]) [18.015, 46.069]).getD 1 0 < 1/2 ∧
    1/2 < (convert_mass_to_molar
        (convert_vol_to_mass [1/2, 1/2] [997, 789]) [18.015, 46.069]).getD 0 0 ∧
    (0.89 : ℝ) < metodo_arrhenius
        ((convert_mass_to_molar
          (convert_vol_to_mass [1/2, 1/2] [997, 789]) [18.015, 46.069]).map
            (fun q => (q : ℝ)))
        [0.89, 1.07] ∧
    metodo_arrhenius
        ((convert_mass_to_molar
          (convert_vol_to_mass [1/2, 1/2] [997, 789]) [18.015, 46.069]).map
            (fun q => (q : ℝ)))
        [0.89, 1.07] < 1.07 := by
  have hx : convert_mass_to_molar
      (convert_vol_to_mass [1/2, 1/2] [997, 789]) [18.015, 46.069] =
        [45930793/60144628, 14213835/60144628] := by
    norm_num [convert_mass_to_molar, convert_vol_to_mass, divNormalize,
      mulNormalize, List.zipWith, List.sum_cons, List.sum_nil, List.map]
  rw [hx]
  have hbounds := arrhenius_two_bounds
    (((45930793 : ℚ)/60144628 : ℚ) : ℝ) (((14213835 : ℚ)/60144628 : ℚ) : ℝ)
    0.89 1.07
    (by push_cast; norm_num) (by push_cast; norm_num)
    (by push_cast; norm_num) (by norm_num) (by norm_num)
  refine ⟨by norm_num, by norm_num, ?_, ?_⟩
  · simpa using hbounds.1
  · simpa using hbounds.2

/-! ## Density models (src/calculations/densidad.py)

`Props` embeds the per-component constant record used by the density
models (the `SOLVENTS` dictionary fields they read).  The mixture values
below are the Kay's-rule linear sums computed identically at the top of
`modified_rackett`, `costald_density` and `pr_peneloux_density`.
Real division by zero (which in the Python-float paths raises
`ZeroDivisionError`, caught into the not-a-number sentinel) is modelled
by explicit zero tests returning `none`. -/

structure Props where
  MW : ℝ
  Tc : ℝ
  Pc : ℝ
  Omega : ℝ
  Z_RA : ℝ

noncomputable def Tc_mix (x : List ℝ) (props : List Props) : ℝ :=
  (List.zipWith (fun xi p => xi * p.Tc) x props).sum

noncomputable def Pc_mix_pa (x : List ℝ) (props : List Props) : ℝ :=
  (List.zipWith (fun xi p => xi * p.Pc * 1e5) x props).sum

noncomputable def Zra_mix (x : List ℝ) (props : List Props) : ℝ :=
  (List.zipWith (fun xi p => xi * p.Z_RA) x props).sum

noncomputable def MW_mix (x : List ℝ) (props : List Props) : ℝ :=
  (List.zipWith (fun xi p => xi * p.MW) x props).sum

noncomputable def w_mix (x : List ℝ) (props : List Props) : ℝ :=
  (List.zipWith (fun xi p => xi * p.Omega) x props).sum

open Classical in
/-- `modified_rackett` of `src/calculations/densidad.py`, lines 15-43:
Kay's-rule mixing, the `Tr >= 1.0` guard returning the sentinel, then
`V = (R*Tc/Pc) * Zra^(1+(1-Tr)^(2/7))` converted to kg/m³. -/
noncomputable def modified_rackett (T : ℝ) (x : List ℝ) (props : List Props) :
    Option ℝ :=
  if Tc_mix x props = 0 then none
  else if 1 ≤ T / Tc_mix x props then none
  else if Pc_mix_pa x props = 0 then none
  else
    let Tr := T / Tc_mix x props
    let term_exp := 1 + (1 - Tr) ^ ((2 : ℝ)/7)
    let V_molar := (8.314 * Tc_mix x props / Pc_mix_pa x props) *
      Zra_mix x props ^ term_exp
    let V_molar_cm3 := V_molar * 1e6
    some (MW_mix x props / V_molar_cm3 * 1000)

open Classical in
/-- `costald_density` of `src/calculations/densidad.py`, lines 45-78:
linear mixing of the estimated characteristic volume (`V* ~ Vc*0.29`,
whose per-component computation divides by `Pc` before the `Tr` guard is
reached), the `Tr >= 1.0` guard returning the sentinel, then the two HBT
polynomials and the fixed `3.6` empirical correction. -/
noncomputable def costald_density (T : ℝ) (x : List ℝ) (props : List Props) :
    Option ℝ :=
  if ∃ p ∈ props, p.Pc * 1e5 = 0 then none
  else if Tc_mix x props = 0 then none
  else if 1 ≤ T / Tc_mix x props then none
  else
    let V_star_mix := (List.zipWith
      (fun xi p => xi * (p.Tc * 8.314 / (p.Pc * 1e5) * 0.29)) x props).sum
    let Tr := T / Tc_mix x props
    let V_R0 := 1 - 1.52816 * (1 - Tr) ^ ((1 : ℝ)/3) +
      1.43907 * (1 - Tr) ^ ((2 : ℝ)/3) - 0.81446 * (1 - Tr) +
      0.190454 * (1 - Tr) ^ ((4 : ℝ)/3)
    let V_Rdelta := (-0.296123 + 0.386914 * Tr - 0.0427258 * Tr ^ 2 -
      0.0480645 * Tr ^ 3) / (Tr - 1.00001)
    let V_s := V_star_mix * V_R0 * (1 - w_mix x props * V_Rdelta)
    let V_molar_cm3 := V_s / 3.6 * 1e6
    some (MW_mix x props / V_molar_cm3 * 1000)

/-- Claim C1: for every molar composition and temperature with a positive
mixture critical temperature, the Modified Rackett and COSTALD models
return the not-a-number sentinel (embedded as `none`, with no exception
path) whenever the reduced temperature `Tr = T/Tc_mix` is at least 1,
including `Tr` exactly 1. -/
theorem c1_rackett_costald_tr_ge_one_nan (T : ℝ) (x : List ℝ)
    (props : List Props) (hTc : 0 < Tc_mix x props)
    (hTr : 1 ≤ T / Tc_mix x props) :
    modified_rackett T x props = none ∧ costald_density T x props = none := by
  constructor
  · unfold modified_rackett
    rw [if_neg (ne_of_gt hTc), if_pos hTr]
  · unfold costald_density
    by_cases hp : ∃ p ∈ props, p.Pc * 1e5 = 0
    · rw [if_pos hp]
    · rw [if_neg hp, if_neg (ne_of_gt hTc), if_pos hTr]

/-- Water, per `src/data/database.py`. -/
noncomputable def aguaProps : Props :=
  ⟨18.015, 647.1, 220.6, 0.344, 0.2338⟩

/-- Witness for C1: pure water at exactly its critical temperature
(`Tr = 1.0`). -/
theorem c1_witness :
    modified_rackett 647.1 [1] [aguaProps] = none ∧
    costald_density 647.1 [1] [aguaProps] = none :=
  c1_rackett_costald_tr_ge_one_nan 647.1 [1] [aguaProps]
    (by norm_num [Tc_mix, aguaProps, List.zipWith, List.sum_cons, List.sum_nil])
    (by norm_num [Tc_mix, aguaProps, List.zipWith, List.sum_cons, List.sum_nil])

/-! ## Peng-Robinson + Peneloux (src/calculations/densidad.py, lines 80-130)

The per-component `a`, `b` and Peneloux `c = 0.05*b` are mixed (`a` via
the square-root linear combining rule, `b` and `c` linearly), the reduced
`A`, `B` coefficients are formed, and `np.roots` is called on
`[1, -(1-B), A-3B²-2B, -(AB-B²-B³)]`.  The numerical root finder is
abstracted as the parameter `rootsOf`, constrained in the theorem to
return exactly the real roots of that cubic.  The code keeps the
positive real roots, takes the smallest as the liquid root (`none` when
the filtered list is empty), and applies the volume shift before the
unit conversion. -/

noncomputable def pr_a_mix (T : ℝ) (x : List ℝ) (props : List Props) : ℝ :=
  ((List.zipWith (fun xi p =>
    xi * Real.sqrt (0.45724 * (8.314 * p.Tc) ^ 2 / (p.Pc * 1e5) *
      (1 + (0.37464 + 1.54226 * p.Omega - 0.26992 * p.Omega ^ 2) *
        (1 - Real.sqrt (T / p.Tc))) ^ 2)) x props).sum) ^ 2

noncomputable def pr_b_mix (x : List ℝ) (props : List Props) : ℝ :=
  (List.zipWith (fun xi p => xi * (0.07780 * 8.314 * p.Tc / (p.Pc * 1e5)))
    x props).sum

noncomputable def pr_c_shift_mix (x : List ℝ) (props : List Props) : ℝ :=
  (List.zipWith
    (fun xi p => xi * (0.05 * (0.07780 * 8.314 * p.Tc / (p.Pc * 1e5))))
    x props).sum

noncomputable def pr_A (T : ℝ) (x : List ℝ) (props : List Props) (P : ℝ) : ℝ :=
  pr_a_mix T x props * (P * 1e5) / (8.314 * T) ^ 2

noncomputable def pr_B (T : ℝ) (x : List ℝ) (props : List Props) (P : ℝ) : ℝ :=
  pr_b_mix x props * (P * 1e5) / (8.314 * T)

/-- The monic reduced cubic `Z³ − (1−B)Z² + (A−3B²−2B)Z − (AB−B²−B³)`. -/
noncomputable def pr_cubic (A B Z : ℝ) : ℝ :=
  Z ^ 3 - (1 - B) * Z ^ 2 + (A - 3 * B ^ 2 - 2 * B) * Z -
    (A * B - B ^ 2 - B ^ 3)

open Classical in
/-- `pr_peneloux_density` of `src/calculations/densidad.py`: `rootsOf`
stands for the real solutions that `np.roots` finds for the monic cubic
with the given lower coefficients. -/
noncomputable def pr_peneloux_density (rootsOf : ℝ → ℝ → ℝ → List ℝ)
    (T : ℝ) (x : List ℝ) (props : List Props) (P : ℝ) : Option ℝ :=
  match (rootsOf (-(1 - pr_B T x props P))
      (pr_A T x props P - 3 * pr_B T x props P ^ 2 - 2 * pr_B T x props P)
      (-(pr_A T x props P * pr_B T x props P - pr_B T x props P ^ 2 -
        pr_B T x props P ^ 3))).filter (fun r => decide (0 < r)) with
  | [] => none
  | z :: zs =>
    let Z_liq := zs.foldl min z
    let V_eos := Z_liq * 8.314 * T / (P * 1e5)
    let V_corrected := V_eos - pr_c_shift_mix x props
    let V_molar_cm3 := V_corrected * 1e6
    some (MW_mix x props / V_molar_cm3 * 1000)

lemma foldl_min_mem {α : Type} [LinearOrder α] :
    ∀ (zs : List α) (z : α), zs.foldl min z ∈ z :: zs := by
  intro zs
  induction zs with
  | nil => intro z; simp
  | cons b bs ih =>
    intro z
    simp only [List.foldl_cons]
    rcases List.mem_cons.mp (ih (min z b)) with h1 | h1
    · rcases min_choice z b with hc | hc
      · rw [h1, hc]
        exact List.mem_cons_self _ _
      · rw [h1, hc]
        exact List.mem_cons.mpr (Or.inr (List.mem_cons_self _ _))
    · exact List.mem_cons.mpr (Or.inr (List.mem_cons.mpr (Or.inr h1)))

lemma foldl_min_le {α : Type} [LinearOrder α] :
    ∀ (zs : List α) (z w : α), w ∈ z :: zs → zs.foldl min z ≤ w := by
  intro zs
  induction zs with
  | nil =>
    intro z w hw
    simp only [List.foldl_nil]
    rcases List.mem_cons.mp hw with h | h
    · exact le_of_eq h.symm
    · simp at h
  | cons b bs ih =>
    intro z w hw
    simp only [List.foldl_cons]
    have hle : bs.foldl min (min z b) ≤ min z b :=
      ih (min z b) _ (List.mem_cons_self _ _)
    rcases List.mem_cons.mp hw with h | hw'
    · exact le_trans (le_trans hle (min_le_left z b)) (le_of_eq h.symm)
    · rcases List.mem_cons.mp hw' with h | hw''
      · exact le_trans (le_trans hle (min_le_right z b)) (le_of_eq h.symm)
      · exact ih (min z b) w (List.mem_cons.mpr (Or.inr hw''))

/-- Claim C2: under the contract that `rootsOf` returns exactly the real
roots of the reduced cubic, the Peng-Robinson + Peneloux model fails to
the sentinel exactly when the cubic has no positive real root, and
otherwise returns the density computed from the smallest positive real
root with the mixed Peneloux shift subtracted from the EOS molar volume
before the conversion to kg/m³. -/
theorem c2_pr_liquid_root_selection (rootsOf : ℝ → ℝ → ℝ → List ℝ) (T : ℝ)
    (x : List ℝ) (props : List Props) (P : ℝ)
    (hroots : ∀ z : ℝ,
      z ∈ rootsOf (-(1 - pr_B T x props P))
          (pr_A T x props P - 3 * pr_B T x props P ^ 2 - 2 * pr_B T x props P)
          (-(pr_A T x props P * pr_B T x props P - pr_B T x props P ^ 2 -
            pr_B T x props P ^ 3)) ↔
        pr_cubic (pr_A T x props P) (pr_B T x props P) z = 0) :
    (pr_peneloux_density rootsOf T x props P = none ↔
      ∀ z : ℝ, 0 < z →
        pr_cubic (pr_A T x props P) (pr_B T x props P) z ≠ 0) ∧
    ∀ r, pr_peneloux_density rootsOf T x props P = some r →
      ∃ Z : ℝ, 0 < Z ∧
        pr_cubic (pr_A T x props P) (pr_B T x props P) Z = 0 ∧
        (∀ z : ℝ, 0 < z →
          pr_cubic (pr_A T x props P) (pr_B T x props P) z = 0 → Z ≤ z) ∧
        r = MW_mix x props /
          ((Z * 8.314 * T / (P * 1e5) - pr_c_shift_mix x props) * 1e6) *
            1000 := by
  have hmemL : ∀ z : ℝ,
      z ∈ (rootsOf (-(1 - pr_B T x props P))
          (pr_A T x props P - 3 * pr_B T x props P ^ 2 - 2 * pr_B T x props P)
          (-(pr_A T x props P * pr_B T x props P - pr_B T x props P ^ 2 -
            pr_B T x props P ^ 3))).filter (fun r => decide (0 < r)) ↔
        0 < z ∧ pr_cubic (pr_A T x props P) (pr_B T x props P) z = 0 := by
    intro z
    rw [List.mem_filter, decide_eq_true_eq, hroots z]
    tauto
  rcases hcase : (rootsOf (-(1 - pr_B T x props P))
      (pr_A T x props P - 3 * pr_B T x props P ^ 2 - 2 * pr_B T x props P)
      (-(pr_A T x props P * pr_B T x props P - pr_B T x props P ^ 2 -
        pr_B T x props P ^ 3))).filter (fun r => decide (0 < r))
    with _ | ⟨z, zs⟩
  · have hval : pr_peneloux_density rootsOf T x props P = none := by
      unfold pr_peneloux_density
      rw [hcase]
    constructor
    · rw [hval]
      constructor
      · intro _ z hz hc
        have hmem := (hmemL z).mpr ⟨hz, hc⟩
        rw [hcase] at hmem
        simp at hmem
      · intro _
        rfl
    · intro r hr
      rw [hval] at hr
      simp at hr
  · have hval : pr_peneloux_density rootsOf T x props P =
        some (MW_mix x props /
          ((zs.foldl min z * 8.314 * T / (P * 1e5) - pr_c_shift_mix x props) *
            1e6) * 1000) := by
      unfold pr_peneloux_density
      rw [hcase]
    have hZmem : zs.foldl min z ∈ (z :: zs) := foldl_min_mem zs z
    have hZprop : 0 < zs.foldl min z ∧
        pr_cubic (pr_A T x props P) (pr_B T x props P) (zs.foldl min z) = 0 := by
      rw [← hmemL]
      rw [hcase]
      exact hZmem
    constructor
    · rw [hval]
      constructor
      · intro h
        simp at h
      · intro hall
        exfalso
        have hz : z ∈ (z :: zs) := List.mem_cons_self _ _
        rw [← hcase] at hz
        have := (hmemL z).mp hz
        exact hall z this.1 this.2
    · intro r hr
      rw [hval] at hr
      refine ⟨zs.foldl min z, hZprop.1, hZprop.2, ?_, ?_⟩
      · intro w hw hcw
        have hmem := (hmemL w).mpr ⟨hw, hcw⟩
        rw [hcase] at hmem
        exact foldl_min_le zs z w hmem
      · exact (Option.some_inj.mp hr).symm

/-- Degenerate root finder used as the concrete instance in the C2
witness: it always reports the root list `[0, 1]`. -/
def c2RootsOf : ℝ → ℝ → ℝ → List ℝ := fun _ _ _ => [0, 1]

/-- Witness for C2: with composition `[0]` every mixed coefficient is 0,
so the cubic degenerates to `Z³ − Z²` with real roots exactly 0 and 1;
since a positive real root exists, the model does not fail. -/
theorem c2_witness :
    pr_peneloux_density c2RootsOf 300 [0] [aguaProps] 1.01325 ≠ none := by
  have hA : pr_A 300 [0] [aguaProps] 1.01325 = 0 := by
    norm_num [pr_A, pr_a_mix, List.zipWith_cons_cons, List.zipWith_nil_left,
      List.sum_cons, List.sum_nil]
  have hB : pr_B 300 [0] [aguaProps] 1.01325 = 0 := by
    norm_num [pr_B, pr_b_mix, List.zipWith_cons_cons, List.zipWith_nil_left,
      List.sum_cons, List.sum_nil]
  have hroots : ∀ z : ℝ,
      z ∈ c2RootsOf (-(1 - pr_B 300 [0] [aguaProps] 1.01325))
          (pr_A 300 [0] [aguaProps] 1.01325 -
            3 * pr_B 300 [0] [aguaProps] 1.01325 ^ 2 -
            2 * pr_B 300 [0] [aguaProps] 1.01325)
          (-(pr_A 300 [0] [aguaProps] 1.01325 *
              pr_B 300 [0] [aguaProps] 1.01325 -
            pr_B 300 [0] [aguaProps] 1.01325 ^ 2 -
            pr_B 300 [0] [aguaProps] 1.01325 ^ 3)) ↔
        pr_cubic (pr_A 300 [0] [aguaProps] 1.01325)
          (pr_B 300 [0] [aguaProps] 1.01325) z = 0 := by
    intro w
    rw [hA, hB]
    simp only [c2RootsOf, pr_cubic]
    constructor
    · intro h
      rcases List.mem_cons.mp h with rfl | h2
      · norm_num
      · rcases List.mem_cons.mp h2 with rfl | h3
        · norm_num
        · simp at h3
    · intro h
      have h2 : w ^ 2 * (w - 1) = 0 := by linear_combination h
      rcases mul_eq_zero.mp h2 with h3 | h3
      · have : w = 0 := by
          have := pow_eq_zero_iff (n := 2) (by norm_num) |>.mp h3
          exact this
        rw [this]
        simp
      · have : w = 1 := by linarith
        rw [this]
        simp
  have h := c2_pr_liquid_root_selection c2RootsOf 300 [0] [aguaProps] 1.01325
    hroots
  intro hnone
  have hall := h.1.mp hnone
  have h1 := hall 1 (by norm_num)
  apply h1
  rw [hA, hB]
  norm_num [pr_cubic]

/-! ## Sprow-Prausnitz surface tension
(src/calculations/tension_superficial.py, lines 34-68)

The objective function solved for the mixture tension is
`sum(xi * exp((sigma_guess - sigma_i)*1e-3 * Ai / (R*T))) - 1` with the
SI molar surface area `Ai = (mw/1000/rho)^(2/3) * NA^(1/3)`; the source
brackets `scipy.optimize.brentq` on
`[min(sigmas) - 10, max(sigmas) + 10]` and turns any failure into the
sentinel.  `brentq` is abstracted as a solver parameter; `idealSolver`
below is a concrete instance satisfying its contract (returned values
are roots; a root is found whenever a sign change is bracketed). -/

def zip4With {α β γ δ ε : Type} (f : α → β → γ → δ → ε) :
    List α → List β → List γ → List δ → List ε
  | a :: as, b :: bs, c :: cs, d :: ds => f a b c d :: zip4With f as bs cs ds
  | _, _, _, _ => []

noncomputable def sprow_objective (x sigmas mws rhos : List ℝ)
    (T sigma_guess : ℝ) : ℝ :=
  (zip4With (fun xi sigma_i mw rho =>
    xi * Real.exp ((sigma_guess - sigma_i) * 1e-3 *
      ((mw / 1000 / rho) ^ ((2 : ℝ)/3) * (6.022e23 : ℝ) ^ ((1 : ℝ)/3)) /
      (8.314 * T))) x sigmas mws rhos).sum - 1

noncomputable def sprow_prausnitz (solver : (ℝ → ℝ) → ℝ → ℝ → Option ℝ)
    (x sigmas mws rhos : List ℝ) (T : ℝ) : Option ℝ :=
  match sigmas with
  | [] => none
  | s :: rest =>
    solver (sprow_objective x (s :: rest) mws rhos T)
      (rest.foldl min s - 10) (rest.foldl max s + 10)

open Classical in
/-- Idealized bracketing root finder: returns some root of `f` inside
`[a, b]` whenever one exists. -/
noncomputable def idealSolver (f : ℝ → ℝ) (a b : ℝ) : Option ℝ :=
  if h : ∃ r ∈ Set.Icc a b, f r = 0 then some h.choose else none

lemma idealSolver_sound (f : ℝ → ℝ) (a b r : ℝ)
    (h : idealSolver f a b = some r) : f r = 0 := by
  by_cases hex : ∃ r ∈ Set.Icc a b, f r = 0
  · rw [idealSolver, dif_pos hex] at h
    rw [← Option.some_inj.mp h]
    exact hex.choose_spec.2
  · rw [idealSolver, dif_neg hex] at h
    exact absurd h (by simp)

lemma idealSolver_complete (f : ℝ → ℝ) (a b : ℝ) (hab : a ≤ b)
    (hcont : ContinuousOn f (Set.Icc a b)) (hfa : f a < 0) (hfb : 0 < f b) :
    ∃ r, idealSolver f a b = some r := by
  have h0 : (0 : ℝ) ∈ Set.Icc (f a) (f b) := ⟨le_of_lt hfa, le_of_lt hfb⟩
  obtain ⟨r, hr, hfr⟩ := intermediate_value_Icc hab hcont h0
  have hex : ∃ r ∈ Set.Icc a b, f r = 0 := ⟨r, hr, hfr⟩
  exact ⟨hex.choose, by rw [idealSolver, dif_pos hex]⟩

/-- Claim C8: on a single-component composition (molar fraction 1) with
positive molar mass, density and temperature, the Sprow-Prausnitz model
returns exactly the pure component's surface tension, for any solver
that satisfies the brentq contract (returned values are roots of the
objective, and a root is returned whenever a sign change is bracketed on
the search interval). -/
theorem c8_sprow_pure_component (solver : (ℝ → ℝ) → ℝ → ℝ → Option ℝ)
    (sigma1 mw rho T : ℝ) (hmw : 0 < mw) (hrho : 0 < rho) (hT : 0 < T)
    (hsound : ∀ f a b r, solver f a b = some r → f r = 0)
    (hcomplete : ∀ f a b, a ≤ b → ContinuousOn f (Set.Icc a b) →
      f a < 0 → 0 < f b → ∃ r, solver f a b = some r) :
    sprow_prausnitz solver [1] [sigma1] [mw] [rho] T = some sigma1 := by
  set A : ℝ := (mw / 1000 / rho) ^ ((2 : ℝ)/3) * (6.022e23 : ℝ) ^ ((1 : ℝ)/3)
    with hAdef
  have hA : 0 < A := by
    rw [hAdef]
    have h1 : (0 : ℝ) < mw / 1000 / rho := by positivity
    exact mul_pos (Real.rpow_pos_of_pos h1 _)
      (Real.rpow_pos_of_pos (by norm_num) _)
  set c : ℝ := 1e-3 * A / (8.314 * T) with hcdef
  have hc : 0 < c := by
    rw [hcdef]
    positivity
  have hobj : sprow_objective [1] [sigma1] [mw] [rho] T =
      fun sigma => Real.exp ((sigma - sigma1) * c) - 1 := by
    funext sigma
    simp only [sprow_objective, zip4With, List.sum_cons, List.sum_nil,
      add_zero, one_mul, hcdef, hAdef]
    congr 1
    rw [mul_assoc, mul_div_assoc]
  have hcont : ContinuousOn (sprow_objective [1] [sigma1] [mw] [rho] T)
      (Set.Icc (sigma1 - 10) (sigma1 + 10)) := by
    rw [hobj]
    apply Continuous.continuousOn
    exact (Real.continuous_exp.comp (by continuity)).sub continuous_const
  have hlo : sprow_objective [1] [sigma1] [mw] [rho] T (sigma1 - 10) < 0 := by
    rw [hobj]
    have harg : (sigma1 - 10 - sigma1) * c = -(10 * c) := by ring
    simp only [harg]
    have : Real.exp (-(10 * c)) < Real.exp 0 :=
      Real.exp_lt_exp.mpr (by linarith)
    rw [Real.exp_zero] at this
    linarith
  have hhi : 0 < sprow_objective [1] [sigma1] [mw] [rho] T (sigma1 + 10) := by
    rw [hobj]
    have harg : (sigma1 + 10 - sigma1) * c = 10 * c := by ring
    simp only [harg]
    have : Real.exp 0 < Real.exp (10 * c) :=
      Real.exp_lt_exp.mpr (by linarith)
    rw [Real.exp_zero] at this
    linarith
  obtain ⟨r, hr⟩ := hcomplete (sprow_objective [1] [sigma1] [mw] [rho] T)
    (sigma1 - 10) (sigma1 + 10) (by linarith) hcont hlo hhi
  have hroot := hsound _ _ _ _ hr
  have hrval : r = sigma1 := by
    rw [hobj] at hroot
    have hroot' : Real.exp ((r - sigma1) * c) - 1 = 0 := by simpa using hroot
    have h1 : Real.exp ((r - sigma1) * c) = Real.exp 0 := by
      rw [Real.exp_zero]
      linarith
    have h2 : (r - sigma1) * c = 0 := Real.exp_eq_exp.mp h1
    rcases mul_eq_zero.mp h2 with h3 | h3
    · linarith
    · exact absurd h3 (ne_of_gt hc)
  show sprow_prausnitz solver [1] [sigma1] [mw] [rho] T = some sigma1
  simp only [sprow_prausnitz, List.foldl_nil]
  rw [hr, hrval]

/-- Witness for C8: pure water (sigma 72.8 mN/m, MW 18.015, rho 997) at
298.15 K with the idealized bracketing solver. -/
theorem c8_witness :
    sprow_prausnitz idealSolver [1] [72.8] [18.015] [997] 298.15 =
      some 72.8 :=
  c8_sprow_pure_component idealSolver 72.8 18.015 997 298.15 (by norm_num)
    (by norm_num) (by norm_num)
    (fun f a b r h => idealSolver_sound f a b r h)
    (fun f a b hab hcont hfa hfb =>
      idealSolver_complete f a b hab hcont hfa hfb)
